import Mathlib

/-!
Verification of the PROCAR band-structure analysis engine of `matter-app`
(`src/procar_parser.py`) against its natural-language specification.

The Python code is shallowly embedded: each whitespace-split line of a file
becomes a `List Tok`, Python floats become exact rationals `ℚ`, Python
exceptions become `Except String` errors, Python `None` becomes `Option.none`,
and imperative array writes become explicit assignment lists folded by
generic update machines.  Doc comments on each definition name the source
function and lines it embeds.
-/

/-- A whitespace-delimited token of an input line.  `intTok n` is a token
accepted by Python `int()` (and `float()`), `fltTok q` a token accepted by
`float()` only, `strTok s` a token accepted by neither (e.g. an orbital
label such as `s` or `py`). -/
inductive Tok where
  | intTok (n : Int)
  | fltTok (q : ℚ)
  | strTok (t : String)
deriving DecidableEq

/-- Python `int(token)`: succeeds exactly on integer-literal tokens,
otherwise raises `ValueError`. -/
def Tok.pyInt : Tok → Except String Int
  | .intTok n => .ok n
  | _ => .error "ValueError"

/-- Python `float(token)`: succeeds on integer and floating-point literal
tokens, otherwise raises `ValueError`. -/
def Tok.pyFloat : Tok → Except String ℚ
  | .intTok n => .ok (n : ℚ)
  | .fltTok q => .ok q
  | _ => .error "ValueError"

/-- The raw text of a token, used where the source uses tokens as strings
(the title join, orbital-label dictionary keys). -/
def Tok.text : Tok → String
  | .intTok n => toString n
  | .fltTok q => toString q
  | .strTok t => t

/-- Python non-negative list indexing `l[i]`: raises `IndexError` past the
end.  (The source never reaches negative literal indices through this
helper.) -/
def pyGet {α : Type} (l : List α) (i : Nat) : Except String α :=
  match l.get? i with
  | some x => .ok x
  | none => .error "IndexError"

/-- Python `l[-1]`: the last element, `IndexError` on an empty list. -/
def pyLast {α : Type} (l : List α) : Except String α :=
  match l.getLast? with
  | some x => .ok x
  | none => .error "IndexError"

/-- One dictionary assignment `d[k] = v` on a string-keyed map of rationals. -/
def updFn (f : String → ℚ) (k : String) (v : ℚ) : String → ℚ :=
  fun x => if x = k then v else f x

/-- An ion record of the parsed PROCAR: `ion = {"index": i, orb1: w1, ...,
"total": t}` (`procar_parser.py` lines 149-156).  The orbital/total keys
are modelled as a total function built from the dictionary assignments;
keys the source never assigns read as `0` here where Python would raise
`KeyError` (no theorem reads such a key). -/
structure PIon where
  index : Int
  vals : String → ℚ

/-- A band record of the parsed PROCAR (`procar_parser.py` lines 138-164):
index, energy, occupancy, the per-ion projection dictionaries, and the
band-total dictionary `band["total"]`. -/
structure PBand where
  index : Int
  energy : ℚ
  occupancy : ℚ
  ions : List PIon
  tot : String → ℚ

/-- A k-point record of the parsed PROCAR (`procar_parser.py` lines 125-167). -/
structure PKpoint where
  index : Int
  coords : List ℚ
  weight : ℚ
  bands : List PBand

/-- The header of the parsed PROCAR (`procar_parser.py` lines 110-116). -/
structure PHeader where
  title : String
  nk : Int
  nb : Int
  nion : Int
  orbitals : List String

/-- The full parsed PROCAR dictionary (`procar["header"]`, `procar["kpoints"]`). -/
structure Procar where
  header : PHeader
  kpoints : List PKpoint

instance : Inhabited Procar := ⟨⟨⟨"", 0, 0, 0, []⟩, []⟩⟩

/-- The dictionary-building loop shared by the per-ion lines and the band
`tot` line (`procar_parser.py` lines 153-155 and 160-162): for each header
orbital `i`, assign `d[orb] = float(line[i+1])` and then
`d["total"] = float(line[-1])`. -/
def buildDict (line : List Tok) (orbs : List String) : Except String (String → ℚ) :=
  orbs.enum.foldlM (fun f io => do
      let v ← (← pyGet line (io.1 + 1)).pyFloat
      let tv ← (← pyLast line).pyFloat
      pure (updFn (updFn f io.2 v) "total" tv))
    (fun _ => 0)

/-- The per-ion parsing loop (`procar_parser.py` lines 148-156):
`for i_idx in range(1, nion+1): n += 1; read lines[n]`.  Returns the parsed
ions together with the final line cursor `n`. -/
def parseIons (lines : List (List Tok)) (orbs : List String) :
    Nat → Int → Nat → Except String (List PIon × Nat)
  | 0, _, n => .ok ([], n)
  | m + 1, iIdx, n => do
      let n1 := n + 1
      let line ← pyGet lines n1
      let d ← buildDict line orbs
      let (rest, nFin) ← parseIons lines orbs m (iIdx + 1) n1
      pure (⟨iIdx, d⟩ :: rest, nFin)

/-- The per-band parsing loop (`procar_parser.py` lines 136-164):
`n += 2`; energy at token 4 and occupancy at token 7 of the band line;
`n += 2`; `nion` ion lines; `n += 1`; the band `tot` line. -/
def parseBands (lines : List (List Tok)) (orbs : List String) :
    Nat → Int → Nat → Nat → Except String (List PBand × Nat)
  | 0, _, _, n => .ok ([], n)
  | m + 1, bIdx, nion, n => do
      let n1 := n + 2
      let bline ← pyGet lines n1
      let energy ← (← pyGet bline 4).pyFloat
      let occ ← (← pyGet bline 7).pyFloat
      let n2 := n1 + 2
      let (ions, n3) ← parseIons lines orbs nion 1 n2
      let n4 := n3 + 1
      let tline ← pyGet lines n4
      let td ← buildDict tline orbs
      let (rest, nFin) ← parseBands lines orbs m (bIdx + 1) nion n4
      pure (⟨bIdx, energy, occ, ions, td⟩ :: rest, nFin)

/-- The per-k-point parsing loop (`procar_parser.py` lines 123-168):
`n += 1`; coordinates from the slice `lines[n][3:6]` (a slice never raises,
`float()` on its elements may), weight at token 8; `nb` band blocks;
`n += 2` before the next k-point. -/
def parseKpoints (lines : List (List Tok)) (orbs : List String) :
    Nat → Int → Nat → Nat → Nat → Except String (List PKpoint × Nat)
  | 0, _, _, _, n => .ok ([], n)
  | m + 1, kIdx, nb, nion, n => do
      let n1 := n + 1
      let kline ← pyGet lines n1
      let coords ← ((kline.drop 3).take 3).mapM Tok.pyFloat
      let w ← (← pyGet kline 8).pyFloat
      let (bands, n2) ← parseBands lines orbs nb 1 nion n1
      let n3 := n2 + 2
      let (rest, nFin) ← parseKpoints lines orbs m (kIdx + 1) nb nion n3
      pure (⟨kIdx, coords, w, bands⟩ :: rest, nFin)

/-- The body of `Parser.PROCAR` (`procar_parser.py` lines 92-169), i.e. the
`try:` block: title from line 0, `nk`/`nb`/`nion` as `int()` of tokens 3, 7
and 11 of line 1, orbital labels from the slice `lines[7][1:-1]`, then the
k-point blocks starting at cursor `n = 2`.  Any Python exception
(`IndexError`, `ValueError`) is an `Except.error`. -/
def PROCARbody (lines : List (List Tok)) : Except String Procar := do
  let line0 ← pyGet lines 0
  let title := String.intercalate " " (line0.map Tok.text)
  let line1 ← pyGet lines 1
  let nk ← (← pyGet line1 3).pyInt
  let nb ← (← pyGet line1 7).pyInt
  let nion ← (← pyGet line1 11).pyInt
  let line7 ← pyGet lines 7
  let orbitals := ((line7.drop 1).dropLast).map Tok.text
  let (kpoints, _) ← parseKpoints lines orbitals nk.toNat 1 nb.toNat nion.toNat 2
  pure ⟨⟨title, nk, nb, nion, orbitals⟩, kpoints⟩

/-- `Parser.PROCAR` (`procar_parser.py` lines 76-172): the `except` clause
catches every exception, prints it, and returns `None`; so the function as
seen by callers returns an `Option`, never raises. -/
def PROCAR (lines : List (List Tok)) : Option Procar :=
  (PROCARbody lines).toOption

/-- `Parser.FERMI` (`procar_parser.py` lines 175-182).  `none` models a
missing/unreadable file (where `open` raises).  Python `float(lines[0])`
applies `float()` to the whole first line, which succeeds exactly when the
line consists of a single parseable token; the bare `except` turns every
failure (missing file, empty file, non-numeric or multi-token first line)
into the printed warning and the return value `0`. -/
def FERMI (file : Option (List (List Tok))) : ℚ :=
  match file with
  | none => 0
  | some [] => 0
  | some ([t] :: _) =>
      match t.pyFloat with
      | .ok q => q
      | .error _ => 0
  | some (_ :: _) => 0

/-! ## Generic update machines

Imperative array/dictionary writes are embedded as a list of
`(key, value)` assignments folded over a key-indexed function:
`setMachine` models plain assignment `a[key] = v` (last write wins),
`addMachine` models accumulation `a[key] += v`, both starting from the
all-zero array the source allocates. -/

/-- One assignment step `a[key] = v`. -/
def setStep {κ : Type} [DecidableEq κ] (f : κ → ℚ) (kv : κ × ℚ) : κ → ℚ :=
  fun x => if x = kv.1 then kv.2 else f x

/-- One accumulation step `a[key] += v`. -/
def addStep {κ : Type} [DecidableEq κ] (f : κ → ℚ) (kv : κ × ℚ) : κ → ℚ :=
  fun x => if x = kv.1 then f x + kv.2 else f x

/-- Fold of plain assignments over an arbitrary initial array. -/
def setMachineFrom {κ : Type} [DecidableEq κ] (f0 : κ → ℚ) (l : List (κ × ℚ)) : κ → ℚ :=
  l.foldl setStep f0

/-- Fold of plain assignments over the all-zero array. -/
def setMachine {κ : Type} [DecidableEq κ] (l : List (κ × ℚ)) : κ → ℚ :=
  setMachineFrom (fun _ => 0) l

/-- Fold of accumulations over an arbitrary initial array. -/
def addMachineFrom {κ : Type} [DecidableEq κ] (f0 : κ → ℚ) (l : List (κ × ℚ)) : κ → ℚ :=
  l.foldl addStep f0

/-- Fold of accumulations over the all-zero array. -/
def addMachine {κ : Type} [DecidableEq κ] (l : List (κ × ℚ)) : κ → ℚ :=
  addMachineFrom (fun _ => 0) l

/-- Whether some assignment in the list writes to key `x`. -/
def touches {κ : Type} [DecidableEq κ] (l : List (κ × ℚ)) (x : κ) : Bool :=
  l.any (fun kv => decide (kv.1 = x))

/-! ## The derived band model (`BandData`)

`BandData.__init__` stores the parsed dictionary and derives `energies`,
`weights`, `band_weights` and (lazily) the per-k-point arrays.  Each
derived array is embedded as the machine applied to the assignment list
generated by the source's loops, read back through the array's index
grid.  Python raises `IndexError` when a stored (1-based) band/ion index
leaves the array bounds (and wraps it when it is negative); the embedding
drops such writes instead — no theorem below touches that case, since all
of them assume the well-formedness `WF` that actual parses guarantee. -/

/-- `kp["bands"]` of the `k`-th k-point (list-positional access). -/
def kpAt (p : Procar) (k : Nat) : PKpoint :=
  p.kpoints.getD k ⟨0, [], 0, []⟩

/-- The `b`-th band record of the `k`-th k-point. -/
def bandAt (p : Procar) (k b : Nat) : PBand :=
  (kpAt p k).bands.getD b ⟨0, 0, 0, [], fun _ => 0⟩

/-- The `i`-th ion record of the `b`-th band of the `k`-th k-point. -/
def ionAt (p : Procar) (k b i : Nat) : PIon :=
  (bandAt p k b).ions.getD i ⟨0, fun _ => 0⟩

/-- The `o`-th header orbital label. -/
def orbAt (p : Procar) (o : Nat) : String :=
  p.header.orbitals.getD o ""

/-- The assignment list of `_compute_energies` (`procar_parser.py` lines
199-211): for each k-point (by position `k`) and each of its band records,
write the band's energy at `(band["index"]-1, k)`. -/
def energyAssigns (p : Procar) : List ((Nat × Nat) × ℚ) :=
  p.kpoints.enum.flatMap fun kkp =>
    kkp.2.bands.filterMap fun band =>
      if 0 ≤ band.index - 1 then
        some (((band.index - 1).toNat, kkp.1), band.energy)
      else none

/-- The energy stored at band-row `b`, k-point-column `k`. -/
def energyVal (p : Procar) : Nat × Nat → ℚ :=
  setMachine (energyAssigns p)

/-- `BandData._compute_energies` (`procar_parser.py` lines 199-211): the
`(nb, nk)` array of per-band, per-k-point energies, zero-initialised and
filled from the band records. -/
def compute_energies (p : Procar) : List (List ℚ) :=
  (List.range p.header.nb.toNat).map fun b =>
    (List.range p.header.nk.toNat).map fun k => energyVal p (b, k)

/-- The assignment list of the `weights` accumulation in
`BandData._compute_weights` (`procar_parser.py` lines 228-234): for every
k-point, band record, ion record and header orbital, accumulate
`ion[orb]` at `(band["index"]-1, ion["index"]-1, orb)`. -/
def weightAssigns (p : Procar) : List ((Nat × Nat × String) × ℚ) :=
  p.kpoints.flatMap fun kp =>
    kp.bands.flatMap fun band =>
      band.ions.flatMap fun ion =>
        p.header.orbitals.filterMap fun orb =>
          if 0 ≤ band.index - 1 ∧ 0 ≤ ion.index - 1 then
            some (((band.index - 1).toNat, (ion.index - 1).toNat, orb), ion.vals orb)
          else none

/-- The accumulated bulk weight at band `b`, ion `i`, orbital label `orb`. -/
def weightsVal (p : Procar) : Nat × Nat × String → ℚ :=
  addMachine (weightAssigns p)

/-- The assignment list of the `band_weights` accumulation
(`procar_parser.py` line 235): for every k-point and band record,
accumulate `band["total"]["total"]` at `band["index"]-1`. -/
def bandWeightAssigns (p : Procar) : List (Nat × ℚ) :=
  p.kpoints.flatMap fun kp =>
    kp.bands.filterMap fun band =>
      if 0 ≤ band.index - 1 then
        some ((band.index - 1).toNat, band.tot "total")
      else none

/-- The accumulated total weight of band `b`. -/
def bandWeightsVal (p : Procar) : Nat → ℚ :=
  addMachine (bandWeightAssigns p)

/-- `BandData.band_weights` (`procar_parser.py` lines 227, 235-236): the
length-`nb` list of per-band total weights. -/
def band_weights (p : Procar) : List ℚ :=
  (List.range p.header.nb.toNat).map fun b => bandWeightsVal p b

/-- Python `dict` key list for a comprehension over `l`: first occurrence
order, duplicates collapsed. -/
def pyDedup {α : Type} [DecidableEq α] (l : List α) : List α :=
  l.foldl (fun acc k => if k ∈ acc then acc else acc ++ [k]) []

/-- A Python string-keyed dictionary of rationals as the source iterates
it: its key list (in insertion order) plus its value map. -/
structure SDict where
  keys : List String
  val : String → ℚ

/-- `BandData._compute_weights` (`procar_parser.py` lines 214-236), the
`weights` result: the `(nb, nion)` grid of dictionaries
`{orb: accumulated weight for orb in header orbitals}`. -/
def weightsGrid (p : Procar) : List (List SDict) :=
  (List.range p.header.nb.toNat).map fun b =>
    (List.range p.header.nion.toNat).map fun i =>
      ⟨pyDedup p.header.orbitals, fun orb => weightsVal p (b, i, orb)⟩

/-- The assignment list of `compute_per_kpoint_weights`
(`procar_parser.py` lines 252-260): for every k-point (position `k`), band
record, ion record and enumerated header orbital `(o, orb)`, write
`float(ion[orb])` at `(band["index"]-1, k, ion["index"]-1, o)`. -/
def perKAssigns (p : Procar) : List ((Nat × Nat × Nat × Nat) × ℚ) :=
  p.kpoints.enum.flatMap fun kkp =>
    kkp.2.bands.flatMap fun band =>
      band.ions.flatMap fun ion =>
        p.header.orbitals.enum.filterMap fun oorb =>
          if 0 ≤ band.index - 1 ∧ 0 ≤ ion.index - 1 then
            some (((band.index - 1).toNat, kkp.1, (ion.index - 1).toNat, oorb.1),
                  ion.vals oorb.2)
          else none

/-- The per-k-point 4D weight array `per_k[b, k, i, o]` of
`compute_per_kpoint_weights` (plain assignments into a zero array). -/
def perK (p : Procar) : Nat × Nat × Nat × Nat → ℚ :=
  setMachine (perKAssigns p)

/-- The per-k-point totals array `per_k_totals[b, k]` of
`compute_per_kpoint_weights` (`procar_parser.py` line 260): the same loop
accumulates each written value at `(b, k)`, i.e. the totals are recomputed
from the orbital-resolved values, never read from the file's `tot`
columns. -/
def perKTot (p : Procar) : Nat × Nat → ℚ :=
  addMachine ((perKAssigns p).map fun kv => ((kv.1.1, kv.1.2.1), kv.2))

/-! ## Machine lemmas -/

section MachineLemmas

variable {κ : Type} [DecidableEq κ]

theorem setMachineFrom_eq (f0 : κ → ℚ) (l : List (κ × ℚ)) (x : κ) :
    setMachineFrom f0 l x = if touches l x then setMachine l x else f0 x := by
  induction l generalizing f0 with
  | nil => simp [setMachineFrom, setMachine, touches]
  | cons kv t ih =>
    have hl : setMachineFrom f0 (kv :: t) x = setMachineFrom (setStep f0 kv) t x := by
      simp [setMachineFrom]
    have hm : setMachine (kv :: t) x = setMachineFrom (setStep (fun _ => 0) kv) t x := by
      simp [setMachine, setMachineFrom]
    have htc : touches (kv :: t) x = (decide (kv.1 = x) || touches t x) := by
      simp [touches]
    rw [hl, ih, hm, ih, htc]
    by_cases ht : touches t x
    · rw [ht]; simp
    · rw [Bool.not_eq_true] at ht
      rw [ht]
      simp only [Bool.or_false, Bool.false_eq_true, if_false, setStep]
      by_cases hk : kv.1 = x
      · simp [hk]
      · have h2 : ¬ x = kv.1 := fun h => hk h.symm
        simp [hk, h2]

theorem setMachine_of_not_touches (l : List (κ × ℚ)) (x : κ) (h : touches l x = false) :
    setMachine l x = 0 := by
  have := setMachineFrom_eq (fun _ => 0) l x
  rw [h] at this
  simpa [setMachine] using this

theorem setMachine_append (l₁ l₂ : List (κ × ℚ)) (x : κ) :
    setMachine (l₁ ++ l₂) x = if touches l₂ x then setMachine l₂ x else setMachine l₁ x := by
  rw [show setMachine (l₁ ++ l₂) x = setMachineFrom (setMachine l₁) l₂ x from by
    simp [setMachine, setMachineFrom, List.foldl_append]]
  exact setMachineFrom_eq _ _ _

theorem addMachineFrom_eq (f0 : κ → ℚ) (l : List (κ × ℚ)) (x : κ) :
    addMachineFrom f0 l x = f0 x + addMachine l x := by
  induction l generalizing f0 with
  | nil => simp [addMachineFrom, addMachine]
  | cons kv t ih =>
    have hl : addMachineFrom f0 (kv :: t) x = addMachineFrom (addStep f0 kv) t x := by
      simp [addMachineFrom]
    have hm : addMachine (kv :: t) x = addMachineFrom (addStep (fun _ => 0) kv) t x := by
      simp [addMachine, addMachineFrom]
    rw [hl, ih, hm, ih]
    simp only [addStep]
    by_cases hk : x = kv.1
    · simp only [hk, if_true]
      ring
    · simp [hk]

theorem addMachine_append (l₁ l₂ : List (κ × ℚ)) (x : κ) :
    addMachine (l₁ ++ l₂) x = addMachine l₁ x + addMachine l₂ x := by
  rw [show addMachine (l₁ ++ l₂) x = addMachineFrom (addMachine l₁) l₂ x from by
    simp [addMachine, addMachineFrom, List.foldl_append]]
  exact addMachineFrom_eq _ _ _

theorem addMachine_flatMap {α : Type} (l : List α) (F : α → List (κ × ℚ)) (x : κ) :
    addMachine (l.flatMap F) x = (l.map (fun a => addMachine (F a) x)).sum := by
  induction l with
  | nil => simp [addMachine, addMachineFrom]
  | cons a t ih => simp [List.flatMap_cons, addMachine_append, ih]

theorem addMachine_map_pair {α : Type} (l : List α) (key : α → κ) (v : α → ℚ) (x : κ) :
    addMachine (l.map fun a => (key a, v a)) x
      = (l.map fun a => if key a = x then v a else 0).sum := by
  induction l with
  | nil => simp [addMachine, addMachineFrom]
  | cons a t ih =>
    rw [List.map_cons, show ((key a, v a) :: t.map fun b => (key b, v b))
        = [(key a, v a)] ++ t.map (fun b => (key b, v b)) from rfl,
      addMachine_append, ih, List.map_cons, List.sum_cons]
    have : addMachine [(key a, v a)] x = if key a = x then v a else 0 := by
      simp only [addMachine, addMachineFrom, List.foldl_cons, List.foldl_nil, addStep]
      by_cases h : x = key a
      · simp [h]
      · have h' : ¬ key a = x := fun hh => h hh.symm
        simp [h, h']
    rw [this]

theorem touches_flatMap {α : Type} (l : List α) (F : α → List (κ × ℚ)) (x : κ) :
    touches (l.flatMap F) x = l.any fun a => touches (F a) x := by
  simp [touches, List.any_flatMap]

theorem touches_append (l₁ l₂ : List (κ × ℚ)) (x : κ) :
    touches (l₁ ++ l₂) x = (touches l₁ x || touches l₂ x) := by
  simp [touches]

theorem touches_range_flatMap_false (n : Nat) (F : Nat → List (κ × ℚ)) (x : κ)
    (h : ∀ j, j < n → touches (F j) x = false) :
    touches ((List.range n).flatMap F) x = false := by
  rw [touches_flatMap]
  simp only [List.any_eq_false]
  intro j hj
  simp [h j (List.mem_range.mp hj)]

theorem setMachine_range_flatMap_unique (n k : Nat) (F : Nat → List (κ × ℚ)) (x : κ)
    (hk : k < n) (hoth : ∀ j, j < n → j ≠ k → touches (F j) x = false) :
    setMachine ((List.range n).flatMap F) x = setMachine (F k) x := by
  induction n with
  | zero => omega
  | succ m ih =>
    rw [List.range_succ, List.flatMap_append, setMachine_append]
    by_cases hkm : k = m
    · subst hkm
      by_cases ht : touches ((List.flatMap [k] F)) x
      · simp only [List.flatMap_cons, List.flatMap_nil, List.append_nil] at ht ⊢
        simp [ht]
      · simp only [List.flatMap_cons, List.flatMap_nil, List.append_nil] at ht ⊢
        simp only [Bool.not_eq_true] at ht
        rw [ht]
        simp only [Bool.false_eq_true, if_false]
        rw [setMachine_of_not_touches _ _ ht,
          setMachine_of_not_touches _ _
            (touches_range_flatMap_false k F x (fun j hj => hoth j (by omega) (by omega)))]
    · have hne : touches (List.flatMap [m] F) x = false := by
        simp only [List.flatMap_cons, List.flatMap_nil, List.append_nil]
        exact hoth m (by omega) (fun h => hkm h.symm)
      simp only [List.flatMap_cons, List.flatMap_nil, List.append_nil] at hne ⊢
      rw [hne]
      simp only [Bool.false_eq_true, if_false]
      exact ih (by omega) (fun j hj hjk => hoth j (by omega) hjk)

theorem sum_range_ite (n k : Nat) (v : Nat → ℚ) (hk : k < n) :
    ((List.range n).map fun j => if j = k then v j else 0).sum = v k := by
  induction n with
  | zero => omega
  | succ m ih =>
    rw [List.range_succ, List.map_append, List.sum_append]
    by_cases hkm : k = m
    · subst hkm
      have : ((List.range k).map fun j => if j = k then v j else 0).sum = 0 := by
        apply List.sum_eq_zero
        intro q hq
        simp only [List.mem_map, List.mem_range] at hq
        obtain ⟨j, hj, rfl⟩ := hq
        simp [Nat.ne_of_lt hj]
      simp [this]
    · have : ((List.map (fun j => if j = k then v j else 0) [m])).sum = 0 := by
        simp [show ¬ m = k from fun h => hkm h.symm]
      rw [this, ih (by omega)]
      simp

theorem sum_range_ite_ge (n k : Nat) (v : Nat → ℚ) (hk : n ≤ k) :
    ((List.range n).map fun j => if j = k then v j else 0).sum = 0 := by
  apply List.sum_eq_zero
  intro q hq
  simp only [List.mem_map, List.mem_range] at hq
  obtain ⟨j, hj, rfl⟩ := hq
  simp [show j ≠ k by omega]

end MachineLemmas

/-! ## Selection helpers and window statistics -/

/-- `BandData.compute_selected_weights` (`procar_parser.py` lines 368-381):
for each band row of `weights`, sum the dictionary entries whose 1-based
ion index is in `selected_ions` and whose orbital key is in
`selected_orbs`.  Operates on the `weights` grid of dictionaries exactly
as the source iterates `ion.items()`. -/
def compute_selected_weights (weights : List (List SDict))
    (selected_ions : List Int) (selected_orbs : List String) : List ℚ :=
  weights.map fun row =>
    (row.enum.map fun iion =>
      (iion.2.keys.map fun orb =>
        if ((iion.1 : Int) + 1) ∈ selected_ions ∧ orb ∈ selected_orbs then
          iion.2.val orb
        else 0).sum).sum

/-- `BandData._orb_index` (`procar_parser.py` line 196): the dictionary
`{orb: i for i, orb in enumerate(orbitals)}` — for a duplicated label the
last position wins, absent labels give `none`. -/
def orbIndexOf (orbs : List String) (o : String) : Option Nat :=
  ((orbs.enum.filter fun x => x.2 = o).getLast?).map (·.1)

/-- The set `{self._orb_index[o] for o in selected_orbs if o in self._orb_index}`
(`procar_parser.py` line 414), as its deduplicated member list. -/
def orbIdxSet (orbs : List String) (selected_orbs : List String) : List Nat :=
  pyDedup (selected_orbs.filterMap (orbIndexOf orbs))

/-- Python `np.min` over a band row; Python raises on an empty row, the
embedding returns `0` there (no theorem evaluates an empty row). -/
def listMin : List ℚ → ℚ
  | [] => 0
  | x :: xs => xs.foldl min x

/-- Python `np.max` over a band row (same empty-row caveat as `listMin`). -/
def listMax : List ℚ → ℚ
  | [] => 0
  | x :: xs => xs.foldl max x

/-- `BandData.get_bands_in_window` (`procar_parser.py` lines 433-441): the
list-indices of bands whose `[min, max]` energy span intersects the
window.  The source body reads the module-level global `energies`, which
in the program's `__main__` flow is exactly this instance's energies
array; the embedding passes that array explicitly. -/
def get_bands_in_window (energies : List (List ℚ)) (ymin ymax : ℚ) : List Nat :=
  (List.range energies.length).filter fun b =>
    let row := energies.getD b []
    ¬ (listMax row < ymin ∨ listMin row > ymax)

/-- `BandData.get_selected_weights_in_window_approx` (`procar_parser.py`
lines 384-402): computes the overlap-fraction-weighted sum into a local
variable and then falls off the end of the function — the source has no
`return` statement, so the call evaluates to Python `None`, modelled as
`none`.  (The local computation is kept so the embedding evaluates the
same intermediate expressions, including the `1e-9` flat-band guard.) -/
def get_selected_weights_in_window_approx (p : Procar) (ymin ymax : ℚ)
    (selected_ions : List Int) (selected_orbs : List String) : Option (ℚ × ℚ) :=
  let energies := compute_energies p
  let bands_in_window := get_bands_in_window energies ymin ymax
  let selected_weights := compute_selected_weights (weightsGrid p) selected_ions selected_orbs
  let _sel_weight_in_window : ℚ := bands_in_window.foldl
    (fun acc b =>
      let row := energies.getD b []
      let emin := listMin row
      let emax := listMax row
      let overlap_frac : ℚ :=
        if emax - emin < 1 / 1000000000 then
          (if emin ≥ ymin ∧ emin ≤ ymax then 1 else 0)
        else
          max 0 (min emax ymax - max emin ymin) / (emax - emin)
      acc + selected_weights.getD b 0 * overlap_frac)
    0
  none

/-- The inner ion loop of `get_selected_weights_in_window_exact`
(`procar_parser.py` lines 421-427) for one in-window `(b, k)` pair: a
selected ion adds its `orb_idx_set` weights to the running selected
total; an unselected ion enters `for o, oi in self._orb_index:`, which
unpacks the dictionary's string keys and therefore raises (`ValueError`
for a key whose length is not 2, otherwise a `TypeError` when the string
character is used as a numpy index) — unless the orbital dictionary is
empty, in which case the loop body never runs. -/
def exactIonLoop (p : Procar) (oSet : List Nat) (selected_ions : List Int)
    (b k : Nat) (acc : ℚ × ℚ) : Except String (ℚ × ℚ) :=
  (List.range p.header.nion.toNat).foldlM
    (fun (a : ℚ × ℚ) (i : Nat) =>
      if ((i : Int) + 1) ∈ selected_ions then
        .ok (a.1 + (oSet.map fun oi => perK p (b, k, i, oi)).sum, a.2)
      else if p.header.orbitals.isEmpty then
        .ok a
      else
        .error "ValueError")
    acc

/-- `BandData.get_selected_weights_in_window_exact` (`procar_parser.py`
lines 404-429): loop over every `(band, k-point)` index pair of the
per-k-point array; when the band energy at that k-point lies in
`[ymin, ymax]`, run the ion loop.  Returns the accumulated pair
`(sel_weight_in_window, weight_in_window)` unless the ion loop raised. -/
def get_selected_weights_in_window_exact (p : Procar) (ymin ymax : ℚ)
    (selected_ions : List Int) (selected_orbs : List String) :
    Except String (ℚ × ℚ) :=
  let energies := compute_energies p
  let oSet := orbIdxSet p.header.orbitals selected_orbs
  let pairs := (List.range p.header.nb.toNat).flatMap fun b =>
    (List.range p.header.nk.toNat).map fun k => (b, k)
  pairs.foldlM
    (fun acc bk =>
      let E := (energies.getD bk.1 []).getD bk.2 0
      if ymin ≤ E ∧ E ≤ ymax then
        exactIonLoop p oSet selected_ions bk.1 bk.2 acc
      else
        .ok acc)
    ((0 : ℚ), (0 : ℚ))

/-! ## Fatband identification -/

/-- A fatband record `{"E-min", "E-max", "bands"}` (`procar_parser.py`
lines 312-316). -/
structure FB where
  emin : ℚ
  emax : ℚ
  bands : List Nat

/-- The placement loop body of `identify_fatbands` (`procar_parser.py`
lines 295-316): try each existing fatband in order; on the first whose
span overlaps `[lo, hi]` (either endpoint inside, or strict containment),
append the band index and grow the span; otherwise append a fresh fatband
at the end. -/
def place : List FB → ℚ → ℚ → Nat → List FB
  | [], lo, hi, i => [⟨lo, hi, [i]⟩]
  | fb :: rest, lo, hi, i =>
    if (fb.emin ≤ lo ∧ lo ≤ fb.emax) ∨ (fb.emin ≤ hi ∧ hi ≤ fb.emax) ∨
        (lo < fb.emin ∧ hi > fb.emax) then
      ⟨min lo fb.emin, max hi fb.emax, fb.bands ++ [i]⟩ :: rest
    else
      fb :: place rest lo hi i

/-- `BandData.identify_fatbands` (`procar_parser.py` lines 284-318):
compute each band's `[min, max]` energy span, then fold the placement
loop over the spans in band-index order.  Returns
`(fatbands, min_max_energies)`. -/
def identify_fatbands (energies : List (List ℚ)) : List FB × List (ℚ × ℚ) :=
  let min_max := energies.map fun row => (listMin row, listMax row)
  (min_max.enum.foldl (fun fbs x => place fbs x.2.1 x.2.2 x.1) [], min_max)

/-! ## Well-formedness

`Parser.PROCAR` emits k-points carrying exactly `nk`/`nb`/`nion`
records with 1-based indices equal to their list positions.  The derived
computations read those stored indices back; `WF` records the properties
every actual parse guarantees, and is what keeps all stored indices inside
the numpy array bounds (outside `WF`, Python would raise `IndexError`
where the embedding drops the write). -/

/-- Executable well-formedness check (see the section comment). -/
def WFb (p : Procar) : Bool :=
  (p.kpoints.length == p.header.nk.toNat) &&
  (List.range p.kpoints.length).all fun k =>
    ((kpAt p k).bands.length == p.header.nb.toNat) &&
    (List.range (kpAt p k).bands.length).all fun b =>
      ((bandAt p k b).index == (b : Int) + 1) &&
      ((bandAt p k b).ions.length == p.header.nion.toNat) &&
      (List.range (bandAt p k b).ions.length).all fun i =>
        (ionAt p k b i).index == (i : Int) + 1

/-- Propositional well-formedness of a parsed PROCAR. -/
structure WF (p : Procar) : Prop where
  klen : p.kpoints.length = p.header.nk.toNat
  blen : ∀ k, k < p.kpoints.length → (kpAt p k).bands.length = p.header.nb.toNat
  bidx : ∀ k b, k < p.kpoints.length → b < (kpAt p k).bands.length →
    (bandAt p k b).index = (b : Int) + 1
  ilen : ∀ k b, k < p.kpoints.length → b < (kpAt p k).bands.length →
    (bandAt p k b).ions.length = p.header.nion.toNat
  iidx : ∀ k b i, k < p.kpoints.length → b < (kpAt p k).bands.length →
    i < (bandAt p k b).ions.length → (ionAt p k b i).index = (i : Int) + 1

theorem wfb_wf (p : Procar) (h : WFb p = true) : WF p := by
  simp only [WFb, Bool.and_eq_true, List.all_eq_true, List.mem_range, beq_iff_eq] at h
  obtain ⟨h1, h2⟩ := h
  refine ⟨h1, ?_, ?_, ?_, ?_⟩
  · intro k hk
    exact (h2 k hk).1
  · intro k b hk hb
    exact ((h2 k hk).2 b hb).1.1
  · intro k b hk hb
    exact ((h2 k hk).2 b hb).1.2
  · intro k b i hk hb hi
    exact ((h2 k hk).2 b hb).2 i hi

/-! ## The concrete test PROCAR

Spec §8's concrete scenario: `nk = 2`, `nb = 2`, `nion = 1`,
orbitals `[s, p]`; band 1 has energies `[-1.0, -0.8]` with weight `1.0`
entirely in orbital `s` on ion 1 at each k-point, band 2 has energies
`[0.5, 0.6]` with weight `1.0` entirely in orbital `p`.  Laid out as the
token lines the parser's fixed cursor arithmetic expects (lines the
cursor skips are empty). -/

/-- A k-point header line `k-point  i : x y z  weight = w`. -/
def kpLine (i : Int) : List Tok :=
  [.strTok "k-point", .intTok i, .strTok ":", .fltTok 0, .fltTok 0, .fltTok 0,
   .strTok "weight", .strTok "=", .fltTok 1]

/-- A band header line `band i # energy e # occ. c`. -/
def bandLine (i : Int) (e c : ℚ) : List Tok :=
  [.strTok "band", .intTok i, .strTok "#", .strTok "energy", .fltTok e,
   .strTok "#", .strTok "occ.", .fltTok c]

/-- An ion weight line `1  s p tot` with the given `s`/`p` weights. -/
def ionLine (sw pw : ℚ) : List Tok :=
  [.intTok 1, .fltTok sw, .fltTok pw, .fltTok (sw + pw)]

/-- A band-total line `tot  s p tot`. -/
def totLine (sw pw : ℚ) : List Tok :=
  [.strTok "tot", .fltTok sw, .fltTok pw, .fltTok (sw + pw)]

/-- The token lines of the concrete test PROCAR. -/
def exampleLines : List (List Tok) :=
  [ [.strTok "PROCAR", .strTok "lm", .strTok "decomposed"],                       -- 0 title
    [.strTok "#", .strTok "of", .strTok "k-points:", .intTok 2, .strTok "#",
     .strTok "of", .strTok "bands:", .intTok 2, .strTok "#", .strTok "of",
     .strTok "ions:", .intTok 1],                                                 -- 1 header
    [],                                                                           -- 2
    kpLine 1,                                                                     -- 3
    [],                                                                           -- 4
    bandLine 1 (-1) 1,                                                            -- 5
    [],                                                                           -- 6
    [.strTok "ion", .strTok "s", .strTok "p", .strTok "tot"],                     -- 7 orbitals
    ionLine 1 0,                                                                  -- 8
    totLine 1 0,                                                                  -- 9
    [],                                                                           -- 10
    bandLine 2 (1/2) 0,                                                           -- 11
    [],                                                                           -- 12
    [],                                                                           -- 13
    ionLine 0 1,                                                                  -- 14
    totLine 0 1,                                                                  -- 15
    [],                                                                           -- 16
    [],                                                                           -- 17
    kpLine 2,                                                                     -- 18
    [],                                                                           -- 19
    bandLine 1 (-4/5) 1,                                                          -- 20
    [],                                                                           -- 21
    [],                                                                           -- 22
    ionLine 1 0,                                                                  -- 23
    totLine 1 0,                                                                  -- 24
    [],                                                                           -- 25
    bandLine 2 (3/5) 0,                                                           -- 26
    [],                                                                           -- 27
    [],                                                                           -- 28
    ionLine 0 1,                                                                  -- 29
    totLine 0 1 ]                                                                 -- 30

/-- The parsed test PROCAR (total by construction: `PROCAR exampleLines`
evaluates to `some exampleProcar`). -/
def exampleProcar : Procar :=
  (PROCAR exampleLines).getD default

/-! ## List and machine helper lemmas -/

theorem list_eq_range_map {α : Type} (d : α) (l : List α) :
    l = (List.range l.length).map (fun j => l.getD j d) := by
  apply List.ext_get (by simp)
  intro n h1 h2
  simp [List.getD_eq_getElem?_getD, List.getElem?_eq_getElem h1]

theorem enum_eq_range_map {α : Type} (d : α) (l : List α) :
    l.enum = (List.range l.length).map (fun j => (j, l.getD j d)) := by
  apply List.ext_get (by simp)
  intro n h1 h2
  simp only [List.enum_length] at h1
  simp [List.getElem_enum, List.getD_eq_getElem?_getD, List.getElem?_eq_getElem h1]

theorem flatMap_congr_mem {α β : Type} {l : List α} {f g : α → List β}
    (h : ∀ a ∈ l, f a = g a) : l.flatMap f = l.flatMap g := by
  induction l with
  | nil => rfl
  | cons a t ih =>
    simp only [List.flatMap_cons]
    rw [h a (List.mem_cons_self a t), ih fun x hx => h x (List.mem_cons_of_mem a hx)]

theorem filterMap_eq_map_mem {α β : Type} {l : List α} {f : α → Option β} {g : α → β}
    (h : ∀ a ∈ l, f a = some (g a)) : l.filterMap f = l.map g := by
  induction l with
  | nil => rfl
  | cons a t ih =>
    rw [List.filterMap_cons, h a (List.mem_cons_self a t), List.map_cons,
      ih fun x hx => h x (List.mem_cons_of_mem a hx)]

theorem addMachine_of_not_touches {κ : Type} [DecidableEq κ] (l : List (κ × ℚ)) (x : κ)
    (h : touches l x = false) : addMachine l x = 0 := by
  induction l with
  | nil => simp [addMachine, addMachineFrom]
  | cons kv t ih =>
    simp only [touches, List.any_cons, Bool.or_eq_false_iff] at h
    have hm : addMachine (kv :: t) x = addMachineFrom (addStep (fun _ => 0) kv) t x := by
      simp [addMachine, addMachineFrom]
    rw [hm, addMachineFrom_eq, ih (by simpa [touches] using h.2)]
    have : ¬ x = kv.1 := by
      intro hx
      simp [hx] at h
    simp [addStep, this]

theorem setMachine_nonneg {κ : Type} [DecidableEq κ] (l : List (κ × ℚ))
    (h : ∀ kv ∈ l, 0 ≤ kv.2) (x : κ) : 0 ≤ setMachine l x := by
  have main : ∀ (f0 : κ → ℚ), (∀ y, 0 ≤ f0 y) → 0 ≤ setMachineFrom f0 l x := by
    induction l with
    | nil => intro f0 hf; exact hf x
    | cons kv t ih =>
      intro f0 hf
      have hstep : ∀ y, 0 ≤ setStep f0 kv y := by
        intro y
        simp only [setStep]
        by_cases hy : y = kv.1
        · simpa [hy] using h kv (List.mem_cons_self kv t)
        · simpa [hy] using hf y
      exact ih (fun kv2 hkv2 => h kv2 (List.mem_cons_of_mem kv hkv2)) (setStep f0 kv) hstep
  exact main (fun _ => 0) (fun _ => le_refl 0)

theorem pyDedup_of_nodup {α : Type} [DecidableEq α] (l : List α) (hnd : l.Nodup) :
    pyDedup l = l := by
  have main : ∀ (l2 acc : List α), l2.Nodup → (∀ x ∈ l2, x ∉ acc) →
      l2.foldl (fun acc k => if k ∈ acc then acc else acc ++ [k]) acc = acc ++ l2 := by
    intro l2
    induction l2 with
    | nil => intro acc _ _; simp
    | cons a t ih =>
      intro acc hnd2 hdisj
      simp only [List.foldl_cons]
      rw [if_neg (hdisj a (List.mem_cons_self a t))]
      rw [ih (acc ++ [a]) (List.nodup_cons.mp hnd2).2]
      · simp
      · intro x hx
        simp only [List.mem_append, List.mem_singleton]
        rintro (hacc | rfl)
        · exact hdisj x (List.mem_cons_of_mem a hx) hacc
        · exact (List.nodup_cons.mp hnd2).1 hx
  simpa [pyDedup] using main l [] hnd (by simp)

theorem sum_map_ite_of_nodup {α : Type} [DecidableEq α] (l : List α) (hnd : l.Nodup)
    (a : α) (f : α → ℚ) (hmem : a ∈ l) :
    (l.map fun x => if x = a then f x else 0).sum = f a := by
  induction l with
  | nil => simp at hmem
  | cons b t ih =>
    simp only [List.map_cons, List.sum_cons]
    rcases List.mem_cons.mp hmem with rfl | hta
    · have hzero : (t.map fun x => if x = a then f x else 0).sum = 0 := by
        apply List.sum_eq_zero
        intro q hq
        simp only [List.mem_map] at hq
        obtain ⟨x, hx, rfl⟩ := hq
        have : x ≠ a := fun hxa => (List.nodup_cons.mp hnd).1 (hxa ▸ hx)
        simp [this]
      simp [hzero]
    · have hba : ¬ b = a := by
        rintro rfl
        exact (List.nodup_cons.mp hnd).1 hta
      rw [ih (List.nodup_cons.mp hnd).2 hta]
      simp [hba]

/-! ## Canonical forms of the assignment lists under `WF` -/

theorem kpAt_def (p : Procar) (k : Nat) :
    p.kpoints.getD k ⟨0, [], 0, []⟩ = kpAt p k := rfl

theorem bandAt_def (p : Procar) (k b : Nat) :
    (kpAt p k).bands.getD b ⟨0, 0, 0, [], fun _ => 0⟩ = bandAt p k b := rfl

theorem ionAt_def (p : Procar) (k b i : Nat) :
    (bandAt p k b).ions.getD i ⟨0, fun _ => 0⟩ = ionAt p k b i := rfl

theorem orbAt_def (p : Procar) (o : Nat) :
    p.header.orbitals.getD o "" = orbAt p o := rfl

/-- Under `WF`, the per-k-point assignment list is the canonical quadruple
range iteration with positional keys. -/
theorem perKAssigns_canon (p : Procar) (h : WF p) :
    perKAssigns p = (List.range p.header.nk.toNat).flatMap fun k =>
      (List.range p.header.nb.toNat).flatMap fun b =>
        (List.range p.header.nion.toNat).flatMap fun i =>
          (List.range p.header.orbitals.length).map fun o =>
            ((b, k, i, o), (ionAt p k b i).vals (orbAt p o)) := by
  conv_lhs => rw [perKAssigns, enum_eq_range_map ⟨0, [], 0, []⟩ p.kpoints]
  rw [List.flatMap_map, h.klen]
  apply flatMap_congr_mem
  intro k hk
  have hkl : k < p.kpoints.length := h.klen ▸ List.mem_range.mp hk
  simp only [kpAt_def]
  conv_lhs => rw [list_eq_range_map (⟨0, 0, 0, [], fun _ => 0⟩ : PBand) (kpAt p k).bands]
  rw [List.flatMap_map, h.blen k hkl]
  apply flatMap_congr_mem
  intro b hb
  have hbl : b < (kpAt p k).bands.length := by
    rw [h.blen k hkl]; exact List.mem_range.mp hb
  simp only [bandAt_def]
  conv_lhs => rw [list_eq_range_map (⟨0, fun _ => 0⟩ : PIon) (bandAt p k b).ions]
  rw [List.flatMap_map, h.ilen k b hkl hbl]
  apply flatMap_congr_mem
  intro i hi
  have hil : i < (bandAt p k b).ions.length := by
    rw [h.ilen k b hkl hbl]; exact List.mem_range.mp hi
  simp only [ionAt_def]
  conv_lhs => rw [enum_eq_range_map "" p.header.orbitals]
  rw [List.filterMap_map]
  apply filterMap_eq_map_mem
  intro o ho
  simp only [Function.comp, orbAt_def, h.bidx k b hkl hbl, h.iidx k b i hkl hbl hil]
  have h1 : (0 : Int) ≤ (b : Int) + 1 - 1 := by omega
  have h2 : (0 : Int) ≤ (i : Int) + 1 - 1 := by omega
  rw [if_pos ⟨h1, h2⟩]
  have h3 : ((b : Int) + 1 - 1).toNat = b := by omega
  have h4 : ((i : Int) + 1 - 1).toNat = i := by omega
  rw [h3, h4]

/-- Under `WF`, the bulk-weight assignment list is the canonical triple
range iteration over the orbital-label list with positional keys. -/
theorem weightAssigns_canon (p : Procar) (h : WF p) :
    weightAssigns p = (List.range p.header.nk.toNat).flatMap fun k =>
      (List.range p.header.nb.toNat).flatMap fun b =>
        (List.range p.header.nion.toNat).flatMap fun i =>
          p.header.orbitals.map fun orb =>
            ((b, i, orb), (ionAt p k b i).vals orb) := by
  conv_lhs => rw [weightAssigns, list_eq_range_map (⟨0, [], 0, []⟩ : PKpoint) p.kpoints]
  rw [List.flatMap_map, h.klen]
  apply flatMap_congr_mem
  intro k hk
  have hkl : k < p.kpoints.length := h.klen ▸ List.mem_range.mp hk
  simp only [kpAt_def]
  conv_lhs => rw [list_eq_range_map (⟨0, 0, 0, [], fun _ => 0⟩ : PBand) (kpAt p k).bands]
  rw [List.flatMap_map, h.blen k hkl]
  apply flatMap_congr_mem
  intro b hb
  have hbl : b < (kpAt p k).bands.length := by
    rw [h.blen k hkl]; exact List.mem_range.mp hb
  simp only [bandAt_def]
  conv_lhs => rw [list_eq_range_map (⟨0, fun _ => 0⟩ : PIon) (bandAt p k b).ions]
  rw [List.flatMap_map, h.ilen k b hkl hbl]
  apply flatMap_congr_mem
  intro i hi
  have hil : i < (bandAt p k b).ions.length := by
    rw [h.ilen k b hkl hbl]; exact List.mem_range.mp hi
  simp only [ionAt_def]
  apply filterMap_eq_map_mem
  intro orb horb
  simp only [h.bidx k b hkl hbl, h.iidx k b i hkl hbl hil]
  have h1 : (0 : Int) ≤ (b : Int) + 1 - 1 := by omega
  have h2 : (0 : Int) ≤ (i : Int) + 1 - 1 := by omega
  rw [if_pos ⟨h1, h2⟩]
  have h3 : ((b : Int) + 1 - 1).toNat = b := by omega
  have h4 : ((i : Int) + 1 - 1).toNat = i := by omega
  rw [h3, h4]

/-! ## Pointwise characterisations of the derived arrays under `WF` -/

/-- Canonical per-k-point assignments for one k-point. -/
def canonLayerB (p : Procar) (k : Nat) : List ((Nat × Nat × Nat × Nat) × ℚ) :=
  (List.range p.header.nb.toNat).flatMap fun b =>
    (List.range p.header.nion.toNat).flatMap fun i =>
      (List.range p.header.orbitals.length).map fun o =>
        ((b, k, i, o), (ionAt p k b i).vals (orbAt p o))

/-- Canonical per-k-point assignments for one k-point and band. -/
def canonLayerI (p : Procar) (k b : Nat) : List ((Nat × Nat × Nat × Nat) × ℚ) :=
  (List.range p.header.nion.toNat).flatMap fun i =>
    (List.range p.header.orbitals.length).map fun o =>
      ((b, k, i, o), (ionAt p k b i).vals (orbAt p o))

/-- Canonical per-k-point assignments for one k-point, band and ion. -/
def canonLayerO (p : Procar) (k b i : Nat) : List ((Nat × Nat × Nat × Nat) × ℚ) :=
  (List.range p.header.orbitals.length).map fun o =>
    ((b, k, i, o), (ionAt p k b i).vals (orbAt p o))

theorem canonLayerB_key (p : Procar) (j : Nat) (kv : (Nat × Nat × Nat × Nat) × ℚ)
    (h : kv ∈ canonLayerB p j) : kv.1.2.1 = j := by
  simp only [canonLayerB, List.mem_flatMap, List.mem_map, List.mem_range] at h
  obtain ⟨b, hb, i, hi, o, ho, hkv⟩ := h
  rw [← hkv]

theorem canonLayerI_key (p : Procar) (k j : Nat) (kv : (Nat × Nat × Nat × Nat) × ℚ)
    (h : kv ∈ canonLayerI p k j) : kv.1.1 = j := by
  simp only [canonLayerI, List.mem_flatMap, List.mem_map, List.mem_range] at h
  obtain ⟨i, hi, o, ho, hkv⟩ := h
  rw [← hkv]

theorem canonLayerO_key (p : Procar) (k b j : Nat) (kv : (Nat × Nat × Nat × Nat) × ℚ)
    (h : kv ∈ canonLayerO p k b j) : kv.1.2.2.1 = j := by
  simp only [canonLayerO, List.mem_map, List.mem_range] at h
  obtain ⟨o, ho, hkv⟩ := h
  rw [← hkv]

theorem touches_of_key_ne {κ : Type} [DecidableEq κ] (l : List (κ × ℚ)) (x : κ)
    (h : ∀ kv ∈ l, kv.1 ≠ x) : touches l x = false := by
  simp only [touches, List.any_eq_false, decide_eq_true_eq]
  exact h

/-- `perK` reads back the ion's orbital value at in-range positional
indices. -/
theorem perK_eq (p : Procar) (h : WF p) (b k i o : Nat)
    (hb : b < p.header.nb.toNat) (hk : k < p.header.nk.toNat)
    (hi : i < p.header.nion.toNat) (ho : o < p.header.orbitals.length) :
    perK p (b, k, i, o) = (ionAt p k b i).vals (orbAt p o) := by
  have hcanon : perKAssigns p = (List.range p.header.nk.toNat).flatMap (canonLayerB p) :=
    perKAssigns_canon p h
  rw [perK, hcanon]
  rw [setMachine_range_flatMap_unique _ k (canonLayerB p) (b, k, i, o) hk ?hothk]
  case hothk =>
    intro j hj hjk
    apply touches_of_key_ne
    intro kv hkv hx
    exact hjk (by rw [← canonLayerB_key p j kv hkv, hx])
  have hBI : canonLayerB p k = (List.range p.header.nb.toNat).flatMap (canonLayerI p k) := rfl
  rw [hBI]
  rw [setMachine_range_flatMap_unique _ b (canonLayerI p k) (b, k, i, o) hb ?hothb]
  case hothb =>
    intro j hj hjb
    apply touches_of_key_ne
    intro kv hkv hx
    exact hjb (by rw [← canonLayerI_key p k j kv hkv, hx])
  have hLayIon : canonLayerI p k b = (List.range p.header.nion.toNat).flatMap (canonLayerO p k b) := rfl
  rw [hLayIon]
  rw [setMachine_range_flatMap_unique _ i (canonLayerO p k b) (b, k, i, o) hi ?hothi]
  case hothi =>
    intro j hj hji
    apply touches_of_key_ne
    intro kv hkv hx
    exact hji (by rw [← canonLayerO_key p k b j kv hkv, hx])
  have hsing : canonLayerO p k b i = (List.range p.header.orbitals.length).flatMap
      fun o' => [((b, k, i, o'), (ionAt p k b i).vals (orbAt p o'))] := by
    rw [canonLayerO]
    exact List.map_eq_bind _ _
  rw [hsing]
  rw [setMachine_range_flatMap_unique _ o _ (b, k, i, o) ho ?hotho]
  case hotho =>
    intro j hj hjo
    apply touches_of_key_ne
    intro kv hkv hx
    simp only [List.mem_singleton] at hkv
    rw [hkv] at hx
    exact hjo (by
      have := congrArg (fun q => q.2.2.2) hx
      simpa using this)
  simp [setMachine, setMachineFrom, setStep]

/-- Canonical bulk-weight assignments for one k-point. -/
def wLayerB (p : Procar) (k : Nat) : List ((Nat × Nat × String) × ℚ) :=
  (List.range p.header.nb.toNat).flatMap fun b =>
    (List.range p.header.nion.toNat).flatMap fun i =>
      p.header.orbitals.map fun orb => ((b, i, orb), (ionAt p k b i).vals orb)

/-- Canonical bulk-weight assignments for one k-point and band. -/
def wLayerI (p : Procar) (k b : Nat) : List ((Nat × Nat × String) × ℚ) :=
  (List.range p.header.nion.toNat).flatMap fun i =>
    p.header.orbitals.map fun orb => ((b, i, orb), (ionAt p k b i).vals orb)

theorem wLayerI_key (p : Procar) (k j : Nat) (kv : (Nat × Nat × String) × ℚ)
    (h : kv ∈ wLayerI p k j) : kv.1.1 = j := by
  simp only [wLayerI, List.mem_flatMap, List.mem_map, List.mem_range] at h
  obtain ⟨i, hi, orb, horb, hkv⟩ := h
  rw [← hkv]

theorem wLayerO_key (p : Procar) (k b j : Nat) (kv : (Nat × Nat × String) × ℚ)
    (h : kv ∈ p.header.orbitals.map fun orb => ((b, j, orb), (ionAt p k b j).vals orb)) :
    kv.1.2.1 = j := by
  simp only [List.mem_map] at h
  obtain ⟨orb, horb, hkv⟩ := h
  rw [← hkv]

/-- One k-point's contribution to the bulk weight at `(b, i, orb)`. -/
theorem addMachine_wLayerB (p : Procar) (hnd : p.header.orbitals.Nodup) (k b i : Nat)
    (orb : String) (hb : b < p.header.nb.toNat) (hi : i < p.header.nion.toNat)
    (hmem : orb ∈ p.header.orbitals) :
    addMachine (wLayerB p k) (b, i, orb) = (ionAt p k b i).vals orb := by
  have hBI : wLayerB p k = (List.range p.header.nb.toNat).flatMap (wLayerI p k) := rfl
  rw [hBI, addMachine_flatMap]
  have hcongB : ∀ b' ∈ List.range p.header.nb.toNat,
      addMachine (wLayerI p k b') (b, i, orb)
        = if b' = b then addMachine (wLayerI p k b') (b, i, orb) else 0 := by
    intro b' hb'
    by_cases hbb : b' = b
    · rw [if_pos hbb]
    · rw [if_neg hbb, addMachine_of_not_touches]
      apply touches_of_key_ne
      intro kv hkv hx
      exact hbb (by rw [← wLayerI_key p k b' kv hkv, hx])
  rw [List.map_eq_map_iff.mpr hcongB, sum_range_ite _ b _ hb]
  have hLayIon : wLayerI p k b = (List.range p.header.nion.toNat).flatMap
      fun i' => p.header.orbitals.map fun orb' => ((b, i', orb'), (ionAt p k b i').vals orb') := rfl
  rw [hLayIon, addMachine_flatMap]
  have hcongI : ∀ i' ∈ List.range p.header.nion.toNat,
      addMachine (p.header.orbitals.map fun orb' => ((b, i', orb'), (ionAt p k b i').vals orb'))
          (b, i, orb)
        = if i' = i then addMachine (p.header.orbitals.map fun orb' =>
            ((b, i', orb'), (ionAt p k b i').vals orb')) (b, i, orb) else 0 := by
    intro i' hi'
    by_cases hii : i' = i
    · rw [if_pos hii]
    · rw [if_neg hii, addMachine_of_not_touches]
      apply touches_of_key_ne
      intro kv hkv hx
      exact hii (by rw [← wLayerO_key p k b i' kv hkv, hx])
  rw [List.map_eq_map_iff.mpr hcongI, sum_range_ite _ i _ hi]
  rw [addMachine_map_pair]
  have hcongO : ∀ orb' ∈ p.header.orbitals,
      (if (b, i, orb') = (b, i, orb) then (ionAt p k b i).vals orb' else 0)
        = if orb' = orb then (ionAt p k b i).vals orb' else 0 := by
    intro orb' _
    simp [Prod.ext_iff]
  rw [List.map_eq_map_iff.mpr hcongO, sum_map_ite_of_nodup _ hnd _ _ hmem]

/-- The bulk weight at `(b, i, orb)` is the sum over k-points of the ion's
orbital value. -/
theorem weightsVal_eq (p : Procar) (h : WF p) (hnd : p.header.orbitals.Nodup)
    (b i : Nat) (orb : String) (hb : b < p.header.nb.toNat)
    (hi : i < p.header.nion.toNat) (hmem : orb ∈ p.header.orbitals) :
    weightsVal p (b, i, orb)
      = ((List.range p.header.nk.toNat).map fun k => (ionAt p k b i).vals orb).sum := by
  have hcanon : weightAssigns p = (List.range p.header.nk.toNat).flatMap (wLayerB p) :=
    weightAssigns_canon p h
  rw [weightsVal, hcanon, addMachine_flatMap]
  congr 1
  apply List.map_eq_map_iff.mpr
  intro k hk
  exact addMachine_wLayerB p hnd k b i orb hb hi hmem

/-- The per-k-point totals array equals the sum of the orbital-resolved
per-k-point entries over ions and orbitals. -/
theorem perKTot_eq (p : Procar) (h : WF p) (b k : Nat)
    (hb : b < p.header.nb.toNat) (hk : k < p.header.nk.toNat) :
    perKTot p (b, k) = ((List.range p.header.nion.toNat).map fun i =>
      ((List.range p.header.orbitals.length).map fun o => perK p (b, k, i, o)).sum).sum := by
  have hcanon : perKAssigns p = (List.range p.header.nk.toNat).flatMap (canonLayerB p) :=
    perKAssigns_canon p h
  rw [perKTot, hcanon, List.map_flatMap, addMachine_flatMap]
  have hkeyB : ∀ (j : Nat) (kv : (Nat × Nat) × ℚ),
      kv ∈ (canonLayerB p j).map (fun kv => ((kv.1.1, kv.1.2.1), kv.2)) → kv.1.2 = j := by
    intro j kv hkv
    simp only [List.mem_map] at hkv
    obtain ⟨kv0, hkv0, hmap⟩ := hkv
    rw [← hmap]
    exact canonLayerB_key p j kv0 hkv0
  have hcongK : ∀ k' ∈ List.range p.header.nk.toNat,
      addMachine ((canonLayerB p k').map (fun kv => ((kv.1.1, kv.1.2.1), kv.2))) (b, k)
        = if k' = k then addMachine ((canonLayerB p k').map
            (fun kv => ((kv.1.1, kv.1.2.1), kv.2))) (b, k) else 0 := by
    intro k' hk'
    by_cases hkk : k' = k
    · rw [if_pos hkk]
    · rw [if_neg hkk, addMachine_of_not_touches]
      apply touches_of_key_ne
      intro kv hkv hx
      exact hkk (by rw [← hkeyB k' kv hkv, hx])
  rw [List.map_eq_map_iff.mpr hcongK, sum_range_ite _ k _ hk]
  have hBI : (canonLayerB p k).map (fun kv => ((kv.1.1, kv.1.2.1), kv.2))
      = (List.range p.header.nb.toNat).flatMap
          fun b' => (canonLayerI p k b').map (fun kv => ((kv.1.1, kv.1.2.1), kv.2)) := by
    have : canonLayerB p k = (List.range p.header.nb.toNat).flatMap (canonLayerI p k) := rfl
    rw [this, List.map_flatMap]
  rw [hBI, addMachine_flatMap]
  have hkeyI : ∀ (j : Nat) (kv : (Nat × Nat) × ℚ),
      kv ∈ (canonLayerI p k j).map (fun kv => ((kv.1.1, kv.1.2.1), kv.2)) → kv.1.1 = j := by
    intro j kv hkv
    simp only [List.mem_map] at hkv
    obtain ⟨kv0, hkv0, hmap⟩ := hkv
    rw [← hmap]
    exact canonLayerI_key p k j kv0 hkv0
  have hcongB : ∀ b' ∈ List.range p.header.nb.toNat,
      addMachine ((canonLayerI p k b').map (fun kv => ((kv.1.1, kv.1.2.1), kv.2))) (b, k)
        = if b' = b then addMachine ((canonLayerI p k b').map
            (fun kv => ((kv.1.1, kv.1.2.1), kv.2))) (b, k) else 0 := by
    intro b' hb'
    by_cases hbb : b' = b
    · rw [if_pos hbb]
    · rw [if_neg hbb, addMachine_of_not_touches]
      apply touches_of_key_ne
      intro kv hkv hx
      exact hbb (by rw [← hkeyI b' kv hkv, hx])
  rw [List.map_eq_map_iff.mpr hcongB, sum_range_ite _ b _ hb]
  have hLayIon : (canonLayerI p k b).map (fun kv => ((kv.1.1, kv.1.2.1), kv.2))
      = (List.range p.header.nion.toNat).flatMap
          fun i => (canonLayerO p k b i).map (fun kv => ((kv.1.1, kv.1.2.1), kv.2)) := by
    have : canonLayerI p k b = (List.range p.header.nion.toNat).flatMap (canonLayerO p k b) := rfl
    rw [this, List.map_flatMap]
  rw [hLayIon, addMachine_flatMap]
  congr 1
  apply List.map_eq_map_iff.mpr
  intro i hi
  have hOmap : (canonLayerO p k b i).map (fun kv => ((kv.1.1, kv.1.2.1), kv.2))
      = (List.range p.header.orbitals.length).map
          fun o => ((b, k), (ionAt p k b i).vals (orbAt p o)) := by
    rw [canonLayerO, List.map_map]
    rfl
  rw [hOmap, addMachine_map_pair]
  congr 1
  apply List.map_eq_map_iff.mpr
  intro o ho
  rw [if_pos rfl,
    perK_eq p h b k i o hb hk (List.mem_range.mp hi) (List.mem_range.mp ho)]

/-! ## Parse completeness -/

theorem except_bind_error {α β : Type} (e : String) (f : α → Except String β) :
    (Except.error e >>= f) = Except.error e := rfl

theorem except_bind_ok {α β : Type} (a : α) (f : α → Except String β) :
    (Except.ok a >>= f) = f a := rfl

theorem except_map_error {α β : Type} (e : String) (f : α → β) :
    (f <$> (Except.error e : Except String α)) = Except.error e := rfl

theorem except_map_ok {α β : Type} (a : α) (f : α → β) :
    (f <$> (Except.ok a : Except String α)) = Except.ok (f a) := rfl

theorem except_pure_eq {α : Type} (a : α) : (pure a : Except String α) = Except.ok a := rfl

/-- Every successful ion-loop parse returns exactly `m` ion records. -/
theorem parseIons_len (lines : List (List Tok)) (orbs : List String) :
    ∀ (m : Nat) (iIdx : Int) (n : Nat) (ions : List PIon) (nFin : Nat),
      parseIons lines orbs m iIdx n = .ok (ions, nFin) → ions.length = m := by
  intro m
  induction m with
  | zero =>
    intro iIdx n ions nFin h
    simp only [parseIons, Except.ok.injEq, Prod.mk.injEq] at h
    rw [← h.1]
    rfl
  | succ m ih =>
    intro iIdx n ions nFin h
    rw [parseIons] at h
    cases h1 : pyGet lines (n + 1) with
    | error e => rw [h1, except_bind_error] at h; exact absurd h (by simp)
    | ok line =>
      rw [h1, except_bind_ok] at h
      cases h2 : buildDict line orbs with
      | error e => rw [h2, except_bind_error] at h; exact absurd h (by simp)
      | ok d =>
        rw [h2, except_bind_ok] at h
        cases h3 : parseIons lines orbs m (iIdx + 1) (n + 1) with
        | error e => rw [h3, except_bind_error] at h; exact absurd h (by simp)
        | ok pr =>
          obtain ⟨rest, nF⟩ := pr
          rw [h3, except_bind_ok] at h
          simp only [except_pure_eq, Except.ok.injEq, Prod.mk.injEq] at h
          rw [← h.1]
          simp [ih (iIdx + 1) (n + 1) rest nF h3]

/-- Every successful band-loop parse returns exactly `m` band records,
each carrying exactly `nion` ion records. -/
theorem parseBands_spec (lines : List (List Tok)) (orbs : List String) :
    ∀ (m : Nat) (bIdx : Int) (nion : Nat) (n : Nat) (bands : List PBand) (nFin : Nat),
      parseBands lines orbs m bIdx nion n = .ok (bands, nFin) →
      bands.length = m ∧ ∀ band ∈ bands, band.ions.length = nion := by
  intro m
  induction m with
  | zero =>
    intro bIdx nion n bands nFin h
    simp only [parseBands, Except.ok.injEq, Prod.mk.injEq] at h
    rw [← h.1]
    exact ⟨rfl, by simp⟩
  | succ m ih =>
    intro bIdx nion n bands nFin h
    rw [parseBands] at h
    cases h1 : pyGet lines (n + 2) with
    | error e => rw [h1, except_bind_error] at h; exact absurd h (by simp)
    | ok bline =>
      rw [h1, except_bind_ok] at h
      cases h2 : pyGet bline 4 with
      | error e => rw [h2, except_bind_error] at h; exact absurd h (by simp)
      | ok etok =>
        rw [h2, except_bind_ok] at h
        cases h2f : etok.pyFloat with
        | error e => rw [h2f, except_bind_error] at h; exact absurd h (by simp)
        | ok energy =>
          rw [h2f, except_bind_ok] at h
          cases h3 : pyGet bline 7 with
          | error e => rw [h3, except_bind_error] at h; exact absurd h (by simp)
          | ok otok =>
            rw [h3, except_bind_ok] at h
            cases h3f : otok.pyFloat with
            | error e => rw [h3f, except_bind_error] at h; exact absurd h (by simp)
            | ok occ =>
              rw [h3f, except_bind_ok] at h
              cases h4 : parseIons lines orbs nion 1 (n + 2 + 2) with
              | error e => simp only [h4, except_bind_error] at h; exact absurd h (by simp)
              | ok pr =>
                obtain ⟨ions, n3⟩ := pr
                simp only [h4, except_bind_ok] at h
                cases h5 : pyGet lines (n3 + 1) with
                | error e => simp only [h5, except_bind_error] at h; exact absurd h (by simp)
                | ok tline =>
                  simp only [h5, except_bind_ok] at h
                  cases h6 : buildDict tline orbs with
                  | error e => simp only [h6, except_bind_error] at h; exact absurd h (by simp)
                  | ok td =>
                    simp only [h6, except_bind_ok] at h
                    cases h7 : parseBands lines orbs m (bIdx + 1) nion (n3 + 1) with
                    | error e => simp only [h7, except_bind_error] at h; exact absurd h (by simp)
                    | ok pr2 =>
                      obtain ⟨rest, nF⟩ := pr2
                      simp only [h7, except_bind_ok] at h
                      simp only [except_pure_eq, Except.ok.injEq, Prod.mk.injEq] at h
                      obtain ⟨hbands, _⟩ := h
                      obtain ⟨hlen, hall⟩ := ih (bIdx + 1) nion (n3 + 1) rest nF h7
                      constructor
                      · rw [← hbands]
                        simp [hlen]
                      · intro band hband
                        rw [← hbands] at hband
                        rcases List.mem_cons.mp hband with rfl | hmem
                        · exact parseIons_len lines orbs nion 1 (n + 2 + 2) ions n3 h4
                        · exact hall band hmem

/-- Every successful k-point-loop parse returns exactly `m` k-point
records, each with `nb` bands of `nion` ions. -/
theorem parseKpoints_spec (lines : List (List Tok)) (orbs : List String) :
    ∀ (m : Nat) (kIdx : Int) (nb nion : Nat) (n : Nat) (kps : List PKpoint) (nFin : Nat),
      parseKpoints lines orbs m kIdx nb nion n = .ok (kps, nFin) →
      kps.length = m ∧ ∀ kp ∈ kps, kp.bands.length = nb ∧
        ∀ band ∈ kp.bands, band.ions.length = nion := by
  intro m
  induction m with
  | zero =>
    intro kIdx nb nion n kps nFin h
    simp only [parseKpoints, Except.ok.injEq, Prod.mk.injEq] at h
    rw [← h.1]
    exact ⟨rfl, by simp⟩
  | succ m ih =>
    intro kIdx nb nion n kps nFin h
    rw [parseKpoints] at h
    cases h1 : pyGet lines (n + 1) with
    | error e => simp only [h1, except_bind_error] at h; exact absurd h (by simp)
    | ok kline =>
      simp only [h1, except_bind_ok] at h
      cases h2 : ((kline.drop 3).take 3).mapM Tok.pyFloat with
      | error e => simp only [h2, except_bind_error] at h; exact absurd h (by simp)
      | ok coords =>
        simp only [h2, except_bind_ok] at h
        cases h3 : pyGet kline 8 with
        | error e => simp only [h3, except_bind_error] at h; exact absurd h (by simp)
        | ok wtok =>
          simp only [h3, except_bind_ok] at h
          cases h3f : wtok.pyFloat with
          | error e => simp only [h3f, except_bind_error] at h; exact absurd h (by simp)
          | ok w =>
            simp only [h3f, except_bind_ok] at h
            cases h4 : parseBands lines orbs nb 1 nion (n + 1) with
            | error e => simp only [h4, except_bind_error] at h; exact absurd h (by simp)
            | ok pr =>
              obtain ⟨bands, n2⟩ := pr
              simp only [h4, except_bind_ok] at h
              cases h5 : parseKpoints lines orbs m (kIdx + 1) nb nion (n2 + 2) with
              | error e => simp only [h5, except_bind_error] at h; exact absurd h (by simp)
              | ok pr2 =>
                obtain ⟨rest, nF⟩ := pr2
                simp only [h5, except_bind_ok] at h
                simp only [except_pure_eq, Except.ok.injEq, Prod.mk.injEq] at h
                obtain ⟨hkps, _⟩ := h
                obtain ⟨hlen, hall⟩ := ih (kIdx + 1) nb nion (n2 + 2) rest nF h5
                constructor
                · rw [← hkps]
                  simp [hlen]
                · intro kp hkp
                  rw [← hkps] at hkp
                  rcases List.mem_cons.mp hkp with rfl | hmem
                  · exact ⟨(parseBands_spec lines orbs nb 1 nion (n + 1) bands n2 h4).1,
                      (parseBands_spec lines orbs nb 1 nion (n + 1) bands n2 h4).2⟩
                  · exact hall kp hmem

theorem PROCAR_ok (lines : List (List Tok)) (p : Procar)
    (h : PROCAR lines = some p) : PROCARbody lines = .ok p := by
  rw [PROCAR] at h
  cases hb : PROCARbody lines with
  | error e => rw [hb] at h; simp [Except.toOption] at h
  | ok q =>
    rw [hb] at h
    simp only [Except.toOption, Option.some.injEq] at h
    rw [h]

/-- A successful parse yields a complete model: exactly the
header-declared number of k-points, bands per k-point and ions per
band. -/
theorem PROCAR_complete (lines : List (List Tok)) (p : Procar)
    (h : PROCAR lines = some p) :
    p.kpoints.length = p.header.nk.toNat ∧
    ∀ kp ∈ p.kpoints, kp.bands.length = p.header.nb.toNat ∧
      ∀ band ∈ kp.bands, band.ions.length = p.header.nion.toNat := by
  have hb := PROCAR_ok lines p h
  rw [PROCARbody] at hb
  cases h0 : pyGet lines 0 with
  | error e => simp only [h0, except_bind_error] at hb; exact absurd hb (by simp)
  | ok line0 =>
    simp only [h0, except_bind_ok] at hb
    cases h1 : pyGet lines 1 with
    | error e => simp only [h1, except_bind_error] at hb; exact absurd hb (by simp)
    | ok line1 =>
      simp only [h1, except_bind_ok] at hb
      cases h2 : pyGet line1 3 with
      | error e => simp only [h2, except_bind_error] at hb; exact absurd hb (by simp)
      | ok nktok =>
        simp only [h2, except_bind_ok] at hb
        cases h2i : nktok.pyInt with
        | error e => simp only [h2i, except_bind_error] at hb; exact absurd hb (by simp)
        | ok nk =>
          simp only [h2i, except_bind_ok] at hb
          cases h3 : pyGet line1 7 with
          | error e => simp only [h3, except_bind_error] at hb; exact absurd hb (by simp)
          | ok nbtok =>
            simp only [h3, except_bind_ok] at hb
            cases h3i : nbtok.pyInt with
            | error e => simp only [h3i, except_bind_error] at hb; exact absurd hb (by simp)
            | ok nb =>
              simp only [h3i, except_bind_ok] at hb
              cases h4 : pyGet line1 11 with
              | error e => simp only [h4, except_bind_error] at hb; exact absurd hb (by simp)
              | ok niontok =>
                simp only [h4, except_bind_ok] at hb
                cases h4i : niontok.pyInt with
                | error e => simp only [h4i, except_bind_error] at hb; exact absurd hb (by simp)
                | ok nion =>
                  simp only [h4i, except_bind_ok] at hb
                  cases h5 : pyGet lines 7 with
                  | error e => simp only [h5, except_bind_error] at hb; exact absurd hb (by simp)
                  | ok line7 =>
                    simp only [h5, except_bind_ok] at hb
                    cases h6 : parseKpoints lines (((line7.drop 1).dropLast).map Tok.text)
                        nk.toNat 1 nb.toNat nion.toNat 2 with
                    | error e => simp only [h6, except_bind_error] at hb; exact absurd hb (by simp)
                    | ok pr =>
                      obtain ⟨kps, nF⟩ := pr
                      simp only [h6, except_bind_ok] at hb
                      simp only [except_pure_eq, Except.ok.injEq] at hb
                      obtain ⟨hlen, hall⟩ := parseKpoints_spec lines
                        (((line7.drop 1).dropLast).map Tok.text) nk.toNat 1 nb.toNat nion.toNat
                        2 kps nF h6
                      rw [← hb]
                      exact ⟨hlen, hall⟩

/-! ## Exact-mode window loop characterisation -/

/-- The selected weight one in-window `(b, k)` pair contributes in
`get_selected_weights_in_window_exact`. -/
def blockVal (p : Procar) (oSet : List Nat) (selected_ions : List Int) (b k : Nat) : ℚ :=
  ((List.range p.header.nion.toNat).map fun (i : Nat) =>
    if ((i : Int) + 1) ∈ selected_ions then
      (oSet.map fun oi => perK p (b, k, i, oi)).sum
    else 0).sum

theorem exactIonLoop_fold (p : Procar) (oSet : List Nat) (selected_ions : List Int)
    (b k : Nat) :
    ∀ (is : List Nat) (acc out : ℚ × ℚ),
      (is.foldlM (fun (a : ℚ × ℚ) (i : Nat) =>
        if ((i : Int) + 1) ∈ selected_ions then
          Except.ok (ε := String) (a.1 + (oSet.map fun oi => perK p (b, k, i, oi)).sum, a.2)
        else if p.header.orbitals.isEmpty then Except.ok a
        else Except.error "ValueError") acc = .ok out) →
      out = (acc.1 + (is.map fun (i : Nat) => if ((i : Int) + 1) ∈ selected_ions then
        (oSet.map fun oi => perK p (b, k, i, oi)).sum else 0).sum, acc.2) := by
  intro is
  induction is with
  | nil =>
    intro acc out h
    rw [List.foldlM_nil] at h
    have hacc : acc = out := by simpa [except_pure_eq] using h
    rw [← hacc]
    simp
  | cons i t ih =>
    intro acc out h
    rw [List.foldlM_cons] at h
    by_cases hsel : ((i : Int) + 1) ∈ selected_ions
    · rw [if_pos hsel, except_bind_ok] at h
      rw [ih _ out h]
      simp [if_pos hsel, add_assoc]
    · rw [if_neg hsel] at h
      by_cases hemp : p.header.orbitals.isEmpty
      · rw [if_pos hemp, except_bind_ok] at h
        rw [ih acc out h]
        simp [if_neg hsel]
      · rw [if_neg hemp, except_bind_error] at h
        exact absurd h (by simp)

theorem exactIonLoop_value (p : Procar) (oSet : List Nat) (selected_ions : List Int)
    (b k : Nat) (acc out : ℚ × ℚ)
    (h : exactIonLoop p oSet selected_ions b k acc = .ok out) :
    out = (acc.1 + blockVal p oSet selected_ions b k, acc.2) :=
  exactIonLoop_fold p oSet selected_ions b k (List.range p.header.nion.toNat) acc out h

theorem exactLoop_sel (p : Procar) (ymin ymax : ℚ) (oSet : List Nat)
    (selected_ions : List Int) :
    ∀ (pairs : List (Nat × Nat)) (acc out : ℚ × ℚ),
      (pairs.foldlM (fun (acc : ℚ × ℚ) (bk : Nat × Nat) =>
        let E := ((compute_energies p).getD bk.1 []).getD bk.2 0
        if ymin ≤ E ∧ E ≤ ymax then
          exactIonLoop p oSet selected_ions bk.1 bk.2 acc
        else Except.ok acc) acc = .ok out) →
      out.1 = acc.1 + (pairs.map fun bk =>
        if ymin ≤ ((compute_energies p).getD bk.1 []).getD bk.2 0 ∧
            ((compute_energies p).getD bk.1 []).getD bk.2 0 ≤ ymax
        then blockVal p oSet selected_ions bk.1 bk.2 else 0).sum := by
  intro pairs
  induction pairs with
  | nil =>
    intro acc out h
    rw [List.foldlM_nil] at h
    have hacc : acc = out := by simpa [except_pure_eq] using h
    rw [← hacc]
    simp
  | cons bk t ih =>
    intro acc out h
    rw [List.foldlM_cons] at h
    by_cases hwin : ymin ≤ ((compute_energies p).getD bk.1 []).getD bk.2 0 ∧
        ((compute_energies p).getD bk.1 []).getD bk.2 0 ≤ ymax
    · simp only [if_pos hwin] at h
      cases hstep : exactIonLoop p oSet selected_ions bk.1 bk.2 acc with
      | error e => rw [hstep, except_bind_error] at h; exact absurd h (by simp)
      | ok acc2 =>
        rw [hstep, except_bind_ok] at h
        have hacc2 : acc2.1 = acc.1 + blockVal p oSet selected_ions bk.1 bk.2 := by
          rw [exactIonLoop_value p oSet selected_ions bk.1 bk.2 acc acc2 hstep]
        rw [ih acc2 out h, hacc2, List.map_cons, List.sum_cons, if_pos hwin, add_assoc]
    · simp only [if_neg hwin] at h
      rw [except_bind_ok] at h
      rw [ih acc out h, List.map_cons, List.sum_cons, if_neg hwin, zero_add]

theorem blockVal_nonneg (p : Procar) (oSet : List Nat) (selected_ions : List Int)
    (b k : Nat) (hnn : ∀ kv ∈ perKAssigns p, 0 ≤ kv.2) :
    0 ≤ blockVal p oSet selected_ions b k := by
  apply List.sum_nonneg
  intro q hq
  simp only [List.mem_map] at hq
  obtain ⟨i, hi, rfl⟩ := hq
  by_cases hsel : ((i : Int) + 1) ∈ selected_ions
  · rw [if_pos hsel]
    apply List.sum_nonneg
    intro r hr
    simp only [List.mem_map] at hr
    obtain ⟨oi, hoi, rfl⟩ := hr
    exact setMachine_nonneg _ hnn _
  · rw [if_neg hsel]

/-! ## Fatband partition lemmas -/

theorem place_join (lo hi : ℚ) (i : Nat) :
    ∀ fbs : List FB,
      List.Perm ((place fbs lo hi i).map FB.bands).join
        (((fbs.map FB.bands).join) ++ [i]) := by
  intro fbs
  induction fbs with
  | nil => simp [place]
  | cons fb rest ih =>
    rw [place]
    by_cases hov : (fb.emin ≤ lo ∧ lo ≤ fb.emax) ∨ (fb.emin ≤ hi ∧ hi ≤ fb.emax) ∨
        (lo < fb.emin ∧ hi > fb.emax)
    · rw [if_pos hov]
      simp only [List.map_cons, List.join_cons]
      have h1 : fb.bands ++ [i] ++ (rest.map FB.bands).join
          = fb.bands ++ ([i] ++ (rest.map FB.bands).join) := by
        rw [List.append_assoc]
      rw [h1]
      have h2 : List.Perm (fb.bands ++ ([i] ++ (rest.map FB.bands).join))
          (fb.bands ++ ((rest.map FB.bands).join ++ [i])) :=
        List.Perm.append_left _ List.perm_append_comm
      have h3 : fb.bands ++ ((rest.map FB.bands).join ++ [i])
          = (fb.bands ++ (rest.map FB.bands).join) ++ [i] := by
        rw [List.append_assoc]
      rw [← h3]
      exact h2
    · rw [if_neg hov]
      simp only [List.map_cons, List.join_cons]
      have h2 : List.Perm (fb.bands ++ ((place rest lo hi i).map FB.bands).join)
          (fb.bands ++ ((rest.map FB.bands).join ++ [i])) :=
        List.Perm.append_left _ ih
      have h3 : fb.bands ++ ((rest.map FB.bands).join ++ [i])
          = (fb.bands ++ (rest.map FB.bands).join) ++ [i] := by
        rw [List.append_assoc]
      rw [← h3]
      exact h2

theorem fold_place_join (l : List (Nat × (ℚ × ℚ))) :
    ∀ fbs : List FB,
      List.Perm (((l.foldl (fun s x => place s x.2.1 x.2.2 x.1) fbs).map FB.bands).join)
        ((fbs.map FB.bands).join ++ l.map Prod.fst) := by
  induction l with
  | nil => intro fbs; simp
  | cons x t ih =>
    intro fbs
    rw [List.foldl_cons]
    have h1 := ih (place fbs x.2.1 x.2.2 x.1)
    have h2 : List.Perm (((place fbs x.2.1 x.2.2 x.1).map FB.bands).join ++ t.map Prod.fst)
        (((fbs.map FB.bands).join ++ [x.1]) ++ t.map Prod.fst) :=
      List.Perm.append_right _ (place_join x.2.1 x.2.2 x.1 fbs)
    have h3 : ((fbs.map FB.bands).join ++ [x.1]) ++ t.map Prod.fst
        = (fbs.map FB.bands).join ++ (x.1 :: t.map Prod.fst) := by
      rw [List.append_assoc]
      rfl
    rw [h3] at h2
    exact h1.trans h2

/-! ## Claim theorems -/

theorem getD_range_map {α : Type} (n j : Nat) (f : Nat → α) (d : α) (hj : j < n) :
    ((List.range n).map f).getD j d = f j := by
  simp [List.getD_eq_getElem?_getD, List.getElem?_map, List.getElem?_range, hj]

/-- An input whose header token at the fixed `nk` position (line 1,
token 3) is not parseable as an integer. -/
def badHeaderLines : List (List Tok) :=
  [[], List.replicate 12 (Tok.strTok "x"), [], [], [], [], [], []]

/-- C1, counterexample.  The claim states that on malformed input
`Parser.PROCAR` fails with a `ParseError` propagated to the caller and
"never [returns] a null/partial result".  On this input, whose header
tokens cannot be read as integers, the function's `except` clause
swallows the exception and the caller receives Python `None`
(`Option.none`) — a null result, not a raised error. -/
theorem C1_counterexample : PROCAR badHeaderLines = none := rfl

/-- C1, amended: on malformed input (unparseable header tokens or a data
block truncated relative to the header-declared `nk`/`nb`/`nion`),
`Parser.PROCAR` catches the internal exception and returns `None` rather
than propagating an error; it still never constructs a partial model —
whenever it does return a parsed dictionary, that model is complete,
with exactly `nk` k-points each holding `nb` bands of `nion` ions. -/
theorem C1_no_partial_model (lines : List (List Tok)) (p : Procar)
    (h : PROCAR lines = some p) :
    p.kpoints.length = p.header.nk.toNat ∧
    ∀ kp ∈ p.kpoints, kp.bands.length = p.header.nb.toNat ∧
      ∀ band ∈ kp.bands, band.ions.length = p.header.nion.toNat :=
  PROCAR_complete lines p h

theorem C1_no_partial_model_witness :
    exampleProcar.kpoints.length = exampleProcar.header.nk.toNat ∧
    ∀ kp ∈ exampleProcar.kpoints, kp.bands.length = exampleProcar.header.nb.toNat ∧
      ∀ band ∈ kp.bands, band.ions.length = exampleProcar.header.nion.toNat :=
  C1_no_partial_model exampleLines exampleProcar rfl

/-- C2 (code bug).  On the spec's concrete scenario (nk=2, nb=2, nion=1,
orbitals `[s, p]`, band 1 with energies `[-1, -0.8]` and weight 1 in
orbital `s` of ion 1 at each k-point, band 2 with energies
`[0.5, 0.6]` and weight 1 in `p`), exact-mode window statistics for
window `[-1, 0]`, ion `{1}`, orbital `{s}` return
`(selectedWeightInWindow, totalWeightInWindow) = (2.0, 0.0)`, not the
`(2.0, 2.0)` the claim requires: the source's `weight_in_window`
accumulator only runs in the unselected-ion `else` branch (which itself
can only raise), so the returned total omits the selected ions'
in-window weight entirely. -/
theorem C2_concrete_scenario :
    get_selected_weights_in_window_exact exampleProcar (-1) 0 [1] ["s"] = .ok (2, 0) := by
  with_unfolding_all rfl

/-- C3 (code bug).  `get_selected_weights_in_window_approx` computes its
overlap-fraction-weighted sum into a local variable and then falls off
the end of the function without a `return` statement, so every call
evaluates to Python `None` — not the `(selectedWeightInWindow,
totalWeightInWindow)` pair the claim (and exact mode) specify.  Evaluated
here on the spec's concrete scenario. -/
theorem C3_approx_returns_none :
    get_selected_weights_in_window_approx exampleProcar (-1) 0 [1] ["s"] = none := rfl

/-- C4.  For every successfully parsed PROCAR, the derived arrays have
the header-declared shapes: `energies` is `nb × nk`, `weights` is
`nb × nion` dictionaries of exactly the `norb` orbital keys (the
`(nb, nion, norb)` shape of the claim), and `band_weights` has length
`nb`.  The orbital labels are assumed pairwise distinct (spec §3's
`orbitalLabels`); with a duplicated label the Python dictionaries would
collapse the duplicate keys. -/
theorem C4_shape_invariant (lines : List (List Tok)) (p : Procar)
    (_h : PROCAR lines = some p) (hnd : p.header.orbitals.Nodup) :
    (compute_energies p).length = p.header.nb.toNat ∧
    (∀ row ∈ compute_energies p, row.length = p.header.nk.toNat) ∧
    (weightsGrid p).length = p.header.nb.toNat ∧
    (∀ row ∈ weightsGrid p, row.length = p.header.nion.toNat ∧
      ∀ d ∈ row, d.keys.length = p.header.orbitals.length) ∧
    (band_weights p).length = p.header.nb.toNat := by
  refine ⟨by simp [compute_energies], ?_, by simp [weightsGrid], ?_, by simp [band_weights]⟩
  · intro row hrow
    simp only [compute_energies, List.mem_map, List.mem_range] at hrow
    obtain ⟨b, hb, hrow⟩ := hrow
    rw [← hrow]
    simp
  · intro row hrow
    simp only [weightsGrid, List.mem_map, List.mem_range] at hrow
    obtain ⟨b, hb, hrow⟩ := hrow
    constructor
    · rw [← hrow]
      simp
    · intro d hd
      rw [← hrow] at hd
      simp only [List.mem_map, List.mem_range] at hd
      obtain ⟨i, hi, hd⟩ := hd
      rw [← hd]
      simp [pyDedup_of_nodup _ hnd]

theorem C4_shape_invariant_witness :
    (compute_energies exampleProcar).length = exampleProcar.header.nb.toNat ∧
    (∀ row ∈ compute_energies exampleProcar, row.length = exampleProcar.header.nk.toNat) ∧
    (weightsGrid exampleProcar).length = exampleProcar.header.nb.toNat ∧
    (∀ row ∈ weightsGrid exampleProcar, row.length = exampleProcar.header.nion.toNat ∧
      ∀ d ∈ row, d.keys.length = exampleProcar.header.orbitals.length) ∧
    (band_weights exampleProcar).length = exampleProcar.header.nb.toNat :=
  C4_shape_invariant exampleLines exampleProcar rfl (by decide)

/-- C5 (code bug).  An empty ion selection is indeed benign for
`compute_selected_weights` (the all-zero per-band vector, first
conjunct), but exact-mode window statistics do not report zero for it:
on the spec's concrete scenario, with an empty ion selection and window
`[-1, 0]` (which contains band 1's energies), every ion falls into the
unselected `else` branch whose `for o, oi in self._orb_index:` unpacks
the orbital dictionary's string keys and raises, so the call raises
instead of returning zero coverage. -/
theorem C5_empty_selection :
    compute_selected_weights (weightsGrid exampleProcar) [] ["s"] = [0, 0] ∧
    get_selected_weights_in_window_exact exampleProcar (-1) 0 [] ["s"]
      = .error "ValueError" := by
  constructor
  · with_unfolding_all rfl
  · rfl

/-- C6.  For every energies array, the fatbands returned by
`identify_fatbands` partition the band indices: the concatenation of all
fatbands' `bands` lists is a permutation of `{0, ..., nb-1}`, so every
band index appears in exactly one fatband, exactly once. -/
theorem C6_fatband_partition (energies : List (List ℚ)) :
    List.Perm (((identify_fatbands energies).1.map FB.bands).join)
      (List.range energies.length) := by
  have hdef : (identify_fatbands energies).1
      = (energies.map fun row => (listMin row, listMax row)).enum.foldl
          (fun s x => place s x.2.1 x.2.2 x.1) [] := rfl
  rw [hdef]
  have h := fold_place_join (energies.map fun row => (listMin row, listMax row)).enum []
  simpa [List.enum_map_fst] using h

/-- C7.  For every well-formed parsed PROCAR with distinct orbital
labels, and every in-range band `b`, ion `i` and orbital position `o`
with label `orb`, the lazily-expanded per-k-point weights collapsed over
the k-point axis reproduce the bulk `weights` array entry exactly (the
embedding computes in exact rationals, so the claim's floating-point
tolerance is met with equality). -/
theorem C7_per_kpoint_consistency (p : Procar) (h : WFb p = true)
    (hnd : p.header.orbitals.Nodup) (b i o : Nat) (orb : String)
    (hb : b < p.header.nb.toNat) (hi : i < p.header.nion.toNat)
    (ho : p.header.orbitals.get? o = some orb) :
    ((List.range p.header.nk.toNat).map fun k => perK p (b, k, i, o)).sum
      = (((weightsGrid p).getD b []).getD i ⟨[], fun _ => 0⟩).val orb := by
  have hw := wfb_wf p h
  have holt : o < p.header.orbitals.length := (List.get?_eq_some.mp ho).1
  have horbAt : orbAt p o = orb := by
    simp [orbAt, List.getD_eq_getElem?_getD, ← List.get?_eq_getElem?, ho]
  have hmem : orb ∈ p.header.orbitals := List.get?_mem ho
  have hgrid : (((weightsGrid p).getD b []).getD i ⟨[], fun _ => 0⟩).val orb
      = weightsVal p (b, i, orb) := by
    rw [weightsGrid, getD_range_map _ _ _ _ hb, getD_range_map _ _ _ _ hi]
  rw [hgrid, weightsVal_eq p hw hnd b i orb hb hi hmem]
  congr 1
  apply List.map_eq_map_iff.mpr
  intro k hk
  rw [perK_eq p hw b k i o hb (List.mem_range.mp hk) hi holt, horbAt]

theorem C7_per_kpoint_consistency_witness :
    ((List.range exampleProcar.header.nk.toNat).map fun k =>
      perK exampleProcar (0, k, 0, 0)).sum
      = (((weightsGrid exampleProcar).getD 0 []).getD 0 ⟨[], fun _ => 0⟩).val "s" :=
  C7_per_kpoint_consistency exampleProcar rfl (by decide) 0 0 0 "s"
    (by decide) (by decide) rfl

/-- C8.  Exact-mode window statistics are monotone in the window: for a
fixed selection, per-k-point weights that are nonnegative (as PROCAR
projection weights are), and a wider window containing a narrower one,
whenever both calls return, the wider window's `selectedWeightInWindow`
is at least the narrower one's. -/
theorem C8_window_monotone (p : Procar) (ymin ymax ymin2 ymax2 : ℚ)
    (selected_ions : List Int) (selected_orbs : List String) (sN tN sW tW : ℚ)
    (hnn : ∀ kv ∈ perKAssigns p, 0 ≤ kv.2)
    (hlo : ymin2 ≤ ymin) (hhi : ymax ≤ ymax2)
    (hN : get_selected_weights_in_window_exact p ymin ymax selected_ions selected_orbs
      = .ok (sN, tN))
    (hW : get_selected_weights_in_window_exact p ymin2 ymax2 selected_ions selected_orbs
      = .ok (sW, tW)) :
    sN ≤ sW := by
  have hN2 := exactLoop_sel p ymin ymax (orbIdxSet p.header.orbitals selected_orbs)
    selected_ions
    ((List.range p.header.nb.toNat).flatMap fun b =>
      (List.range p.header.nk.toNat).map fun k => (b, k))
    (0, 0) (sN, tN) hN
  have hW2 := exactLoop_sel p ymin2 ymax2 (orbIdxSet p.header.orbitals selected_orbs)
    selected_ions
    ((List.range p.header.nb.toNat).flatMap fun b =>
      (List.range p.header.nk.toNat).map fun k => (b, k))
    (0, 0) (sW, tW) hW
  simp only [zero_add] at hN2 hW2
  rw [hN2, hW2]
  apply List.sum_le_sum
  intro bk hbk
  by_cases hwinN : ymin ≤ ((compute_energies p).getD bk.1 []).getD bk.2 0 ∧
      ((compute_energies p).getD bk.1 []).getD bk.2 0 ≤ ymax
  · rw [if_pos hwinN, if_pos ⟨le_trans hlo hwinN.1, le_trans hwinN.2 hhi⟩]
  · rw [if_neg hwinN]
    by_cases hwinW : ymin2 ≤ ((compute_energies p).getD bk.1 []).getD bk.2 0 ∧
        ((compute_energies p).getD bk.1 []).getD bk.2 0 ≤ ymax2
    · rw [if_pos hwinW]
      exact blockVal_nonneg p _ selected_ions bk.1 bk.2 hnn
    · rw [if_neg hwinW]

theorem C8_window_monotone_witness : (2 : ℚ) ≤ 2 :=
  C8_window_monotone exampleProcar (-1) 0 (-2) 1 [1] ["s"] 2 0 2 0
    (by decide) (by norm_num) (by norm_num)
    (by with_unfolding_all rfl) (by with_unfolding_all rfl)

/-- C9, counterexample.  The claim states that for a readable FERMI file
`parseFermi` returns the first floating-point token, ignoring all
content beyond the first token.  For a readable file whose first line is
`1.5 2.5`, Python `float(lines[0])` is applied to the whole line, fails,
and the bare `except` returns `0` — not the first token's value `1.5`. -/
theorem C9_counterexample :
    FERMI (some [[Tok.fltTok (3 / 2), Tok.fltTok (5 / 2)]]) = 0 ∧ (3 / 2 : ℚ) ≠ 0 :=
  ⟨rfl, by norm_num⟩

/-- C9, amended: `parseFermi` never throws; for a missing or unreadable
file it returns exactly `0.0` with a printed warning, and for a readable
file it returns `float` of the whole first line — the first token's
value exactly when the first line consists of that single parseable
token (content on subsequent lines is ignored; extra tokens on the first
line make `float()` fail valueerror-style and also fall back to `0.0`). -/
theorem C9_fermi_fallback :
    FERMI none = 0 ∧
    ∀ (t : Tok) (q : ℚ) (rest : List (List Tok)),
      t.pyFloat = .ok q → FERMI (some ([t] :: rest)) = q := by
  constructor
  · rfl
  · intro t q rest h
    simp [FERMI, h]

theorem C9_fermi_fallback_witness :
    FERMI none = 0 ∧ FERMI (some [[Tok.fltTok (7 / 2)], [Tok.strTok "junk"]]) = 7 / 2 :=
  ⟨C9_fermi_fallback.1,
    C9_fermi_fallback.2 (Tok.fltTok (7 / 2)) (7 / 2) [[Tok.strTok "junk"]] rfl⟩

/-- C10.  For every well-formed parsed PROCAR and in-range `(b, k)`, the
per-k-point totals array of `compute_per_kpoint_weights` equals the sum
over all ions and orbital columns of the orbital-resolved per-k-point
entries — it is recomputed from those entries (the loop accumulates the
same `val` it stores), never read from the file's `tot` columns. -/
theorem C10_totals_recomputed (p : Procar) (h : WFb p = true) (b k : Nat)
    (hb : b < p.header.nb.toNat) (hk : k < p.header.nk.toNat) :
    perKTot p (b, k) = ((List.range p.header.nion.toNat).map fun i =>
      ((List.range p.header.orbitals.length).map fun o => perK p (b, k, i, o)).sum).sum :=
  perKTot_eq p (wfb_wf p h) b k hb hk

theorem C10_totals_recomputed_witness :
    perKTot exampleProcar (0, 0) = ((List.range exampleProcar.header.nion.toNat).map fun i =>
      ((List.range exampleProcar.header.orbitals.length).map fun o =>
        perK exampleProcar (0, 0, i, o)).sum).sum :=
  C10_totals_recomputed exampleProcar rfl 0 0 (by decide) (by decide)
